import Mathlib

/-!
# juggler: device ordering and device location

A shallow embedding of `main.go` (the `DeviceConnector` methods `attachDevices`,
`detachDevices`, `orphanDevices`, `findDevices` and the `detach` command action).

Modelling conventions.

* A Go `string` is a Lean `String`.  Go compares strings byte by byte and searches them
  byte by byte; on UTF-8 text these are the order of the code points and the search for a
  block of code points, which is what `Less` and `Contains` below use.
* A Go `map[string]V` is a `GoMap V`: its entries with pairwise distinct keys.  The order
  of `entries` is the order in which a `range` over the map yields them; Go leaves that
  order unspecified, so every statement below is for an arbitrary order of `entries`.
  In `orphanDevices` the inner `range` is executed once for each domain and each
  execution may yield another order: the orders are the argument `RangeOrders` of
  `orphanDevices`.  In `findDevices` the inner `range` is taken with the order `entries`
  at each execution: the map it returns, read with `get?`, does not depend on the order.
* The libvirt daemon is the record `Libvirt` of its answers.  The answer to a device
  call may depend on the device calls issued before it.
* `log.Fatalf` ends the process: a run that reaches it has result `Outcome.fatal`.
  `log.Printf` and `log.Println` have no effect on the run and are left out.
* The minifier of `github.com/tdewolff/minify` and `strings.ToLower` are library code;
  they are the two fields of `TextLib`, a parameter of `findDevices`.
-/

namespace Juggler

/-! ## Strings and sorting -/

/-- The method `Less` of `sort.StringSlice`: `x[i] < x[j]` on Go strings. -/
def Less (a b : String) : Bool := decide (a.data < b.data)

/-- The adapter `sort.Reverse`: the order of `less` with its arguments exchanged. -/
def Reverse (less : String → String → Bool) (a b : String) : Bool := less b a

/-- The call `sort.Sort` on a slice of strings, for the order `less` (`Sort` is a reserved
word of Lean).  The slices sorted in
`main.go` hold the keys of a map, which are pairwise distinct, so the sorted slice does not
depend on the sorting algorithm; an insertion sort stands for it. -/
def sortSlice (less : String → String → Bool) (xs : List String) : List String :=
  xs.insertionSort (fun a b => less b a = false)

/-- The function `strings.Contains`: `substr` occurs in `s` as a contiguous block. -/
def Contains (s substr : String) : Bool := decide (substr.data <:+: s.data)

/-! ## Go maps keyed by strings -/

/-- A Go `map[string]V`. -/
structure GoMap (V : Type) where
  entries : List (String × V)
  nodup : (entries.map Prod.fst).Nodup

/-- The empty map, `make(map[string]V)`. -/
def GoMap.empty {V : Type} : GoMap V := ⟨[], List.nodup_nil⟩

/-- The keys of a map, in the order a `range` yields them. -/
def GoMap.keys {V : Type} (m : GoMap V) : List String := m.entries.map Prod.fst

/-- The two-valued index expression `v, ok := m[k]`. -/
def GoMap.get? {V : Type} (m : GoMap V) (k : String) : Option V := m.entries.lookup k

/-- The index expression `m[k]`: the zero value of `V` when `k` is not a key. -/
def GoMap.index {V : Type} [Inhabited V] (m : GoMap V) (k : String) : V :=
  (m.get? k).getD default

/-- The assignment `m[k] = v`: the value of an existing key is replaced, a new key is
added. -/
def GoMap.set {V : Type} (m : GoMap V) (k : String) (v : V) : GoMap V :=
  if h : k ∈ m.entries.map Prod.fst then
    ⟨m.entries.map (fun e => if e.1 = k then (k, v) else e), by
      have hk : (m.entries.map (fun e => if e.1 = k then (k, v) else e)).map Prod.fst
          = m.entries.map Prod.fst := by
        rw [List.map_map]
        apply List.map_congr_left
        intro e _
        by_cases he : e.1 = k <;> simp [he]
      rw [hk]
      exact m.nodup⟩
  else
    ⟨m.entries ++ [(k, v)], by
      rw [List.map_append]
      refine List.Nodup.append m.nodup (by simp) ?_
      simpa [List.disjoint_right] using h⟩

/-! ## The daemon -/

/-- Modelled from the spec: the type `libvirt.Domain` is declared in the libvirt client
library, not in `main.go`.  It is the hypervisor-assigned identifier, the name and the
UUID of a domain. -/
structure Domain where
  Name : String
  UUID : List Nat
  ID : Int
deriving DecidableEq, Repr

/-- The zero value of `libvirt.Domain`. -/
instance : Inhabited Domain := ⟨⟨"", List.replicate 16 0, 0⟩⟩

/-- The two device calls of the daemon that `main.go` uses. -/
inductive Rpc where
  | DomainAttachDevice
  | DomainDetachDevice
deriving DecidableEq, Repr

/-- A device call issued to the daemon: the call, its two arguments, and the descriptor
name of the loop iteration that issued it (the name is not sent to the daemon). -/
structure Call where
  rpc : Rpc
  domain : Domain
  xml : String
  deviceName : String
deriving DecidableEq, Repr

/-- The libvirt client: what the daemon answers.  `Except.error` and `some` are a non-nil
`error`.  A device call is answered from the device calls issued so far (oldest first)
and its own arguments. -/
structure Libvirt where
  Domains : Except String (List Domain)
  DomainGetXMLDesc : Domain → Except String String
  DomainAttachDevice : List Call → Domain → String → Option String
  DomainDetachDevice : List Call → Domain → String → Option String

/-- The text functions `findDevices` calls: `m.String(mediatype, v)` of the minifier `m`
(the returned text and the returned error) and `strings.ToLower`. -/
structure TextLib where
  minifyString : String → String → String × Option String
  ToLower : String → String

/-- How a function of `main.go` ends: it returns, or `log.Fatalf` ends the process. -/
inductive Outcome (α : Type) where
  | returned (a : α)
  | fatal
deriving DecidableEq, Repr

/-- A run: the device calls issued, oldest first, and how the run ended. -/
structure Run (α : Type) where
  calls : List Call
  result : Outcome α

/-! ## attachDevices -/

/-- The second loop of `attachDevices`, `for deviceName, device := range deviceXML`:
`entries` are the entries still to visit and `hist` the device calls issued so far. -/
def attachRange (client : Libvirt) (domain : Domain) :
    List (String × String) → List Call → Run Unit
  | [], hist => ⟨hist, .returned ()⟩
  | (deviceName, device) :: rest, hist =>
    let err := client.DomainAttachDevice hist domain device
    let hist' := hist ++ [⟨.DomainAttachDevice, domain, device, deviceName⟩]
    match err with
    | some _ => ⟨hist', .fatal⟩
    | none => attachRange client domain rest hist'

set_option linter.unusedVariables false in
/-- The method `attachDevices`.  The sorted slice `filenames` is built and then not used:
the calls are issued by a `range` over the map `deviceXML` itself. -/
def attachDevices (client : Libvirt) (domain : Domain) (deviceXML : GoMap String) :
    Run Unit :=
  let filenames := sortSlice Less deviceXML.keys
  attachRange client domain deviceXML.entries []

/-! ## detachDevices -/

/-- The loop of `detachDevices`, `for _, filename := range filenames`. -/
def detachLoop (client : Libvirt) (deviceDomains : GoMap Domain) (deviceXML : GoMap String) :
    List String → List Call → Run Unit
  | [], hist => ⟨hist, .returned ()⟩
  | filename :: rest, hist =>
    let domain := deviceDomains.index filename
    let xml := deviceXML.index filename
    let err := client.DomainDetachDevice hist domain xml
    let hist' := hist ++ [⟨.DomainDetachDevice, domain, xml, filename⟩]
    match err with
    | some _ => ⟨hist', .fatal⟩
    | none => detachLoop client deviceDomains deviceXML rest hist'

/-- The method `detachDevices`. -/
def detachDevices (client : Libvirt) (deviceDomains : GoMap Domain)
    (deviceXML : GoMap String) : Run Unit :=
  let filenames := sortSlice (Reverse Less) deviceDomains.keys
  detachLoop client deviceDomains deviceXML filenames []

/-! ## orphanDevices -/

/-- The inner loop of `orphanDevices`, `for deviceName, device := range devices`: an error
of the call is logged and the loop goes on. -/
def orphanRange (client : Libvirt) (domain : Domain) :
    List (String × String) → List Call → List Call
  | [], hist => hist
  | (deviceName, device) :: rest, hist =>
    let err := client.DomainAttachDevice hist domain device
    let hist' := hist ++ [⟨.DomainAttachDevice, domain, device, deviceName⟩]
    match err with
    | some _ => orphanRange client domain rest hist'
    | none => orphanRange client domain rest hist'

/-- The orders in which the successive executions of a `range` over the map `m` yield its
entries: the execution number `i` yields `order i`, the entries of `m` in some order. -/
structure RangeOrders {V : Type} (m : GoMap V) where
  order : Nat → List (String × V)
  perm : ∀ i, (order i).Perm m.entries

/-- The outer loop of `orphanDevices`, `for _, domain := range domains`: `i` is the number
of domains visited so far, and the inner `range devices` of this iteration yields
`order i`. -/
def orphanDomains (client : Libvirt) (order : Nat → List (String × String)) :
    List Domain → Nat → List Call → List Call
  | [], _, hist => hist
  | domain :: rest, i, hist =>
    orphanDomains client order rest (i + 1) (orphanRange client domain (order i) hist)

/-- The method `orphanDevices`; `orders` gives the order of each execution of the inner
`range devices`. -/
def orphanDevices (client : Libvirt) (devices : GoMap String) (orders : RangeOrders devices) :
    Run Unit :=
  match client.Domains with
  | .error _ => ⟨[], .fatal⟩
  | .ok domains => ⟨orphanDomains client orders.order domains 0 [], .returned ()⟩

/-! ## findDevices -/

/-- The inner loop of `findDevices`, `for deviceName, device := range devices`, for the
domain `domain` whose minified and lowercased configuration is `xml`.  The error that
`m.String` returns is discarded (`deviceMinified, _ := ...`). -/
def findRange (lib : TextLib) (xml : String) (domain : Domain) :
    List (String × String) → GoMap Domain → GoMap Domain
  | [], output => output
  | (deviceName, device) :: rest, output =>
    let deviceMinified := (lib.minifyString "text/xml" device).1
    let deviceMinified := lib.ToLower deviceMinified
    if Contains xml deviceMinified then
      findRange lib xml domain rest (output.set deviceName domain)
    else
      findRange lib xml domain rest output

/-- The outer loop of `findDevices`, `for _, domain := range domains`: a domain whose
configuration cannot be read is skipped (`continue`); the error that `m.String` returns
is discarded (`xml, _ = ...`). -/
def findDomains (lib : TextLib) (client : Libvirt) (devices : GoMap String) :
    List Domain → GoMap Domain → GoMap Domain
  | [], output => output
  | domain :: rest, output =>
    match client.DomainGetXMLDesc domain with
    | .error _ => findDomains lib client devices rest output
    | .ok xml =>
      let xml := (lib.minifyString "text/xml" xml).1
      let xml := lib.ToLower xml
      findDomains lib client devices rest (findRange lib xml domain devices.entries output)

/-- The method `findDevices`.  It issues no device call. -/
def findDevices (lib : TextLib) (client : Libvirt) (devices : GoMap String) :
    Outcome (GoMap Domain) :=
  match client.Domains with
  | .error _ => .fatal
  | .ok domains => .returned (findDomains lib client devices domains GoMap.empty)

/-- The calls a `range` over `entries` issues through `DomainAttachDevice` against `domain`
when it visits every entry. -/
def attachCalls (domain : Domain) (entries : List (String × String)) : List Call :=
  entries.map (fun e => ⟨.DomainAttachDevice, domain, e.2, e.1⟩)

/-- The call `detachDevices` issues for the name `n`. -/
def detachCall (deviceDomains : GoMap Domain) (deviceXML : GoMap String) (n : String) : Call :=
  ⟨.DomainDetachDevice, deviceDomains.index n, deviceXML.index n, n⟩

/-- The normalization of a configuration text: the text `m.String` returns for the media
type `text/xml`, in lower case. -/
def normalize (lib : TextLib) (x : String) : String :=
  lib.ToLower (lib.minifyString "text/xml" x).1

/-- Whether the configuration of a domain can be read. -/
def readable (client : Libvirt) (d : Domain) : Bool :=
  match client.DomainGetXMLDesc d with
  | .ok _ => true
  | .error _ => false

/-- The domains of an enumeration whose configuration can be read, each with its normalized
configuration, in enumeration order. -/
def readableConfigs (lib : TextLib) (client : Libvirt) (domains : List Domain) :
    List (Domain × String) :=
  domains.filterMap (fun d =>
    match client.DomainGetXMLDesc d with
    | .ok xml => some (d, normalize lib xml)
    | .error _ => none)

/-- The last domain of an enumeration whose configuration can be read and, normalized,
contains the normalized text `device`. -/
def lastOwner (lib : TextLib) (client : Libvirt) (domains : List Domain) (device : String) :
    Option Domain :=
  (((readableConfigs lib client domains).filter
    (fun p => Contains p.2 (normalize lib device))).getLast?).map Prod.fst

/-! ## Concrete daemons, libraries and maps used in the examples -/

/-- An example domain. -/
def dom1 : Domain := ⟨"guest1", List.replicate 16 1, 1⟩

/-- A second example domain. -/
def dom2 : Domain := ⟨"guest2", List.replicate 16 2, 2⟩

/-- A third example domain. -/
def dom3 : Domain := ⟨"guest3", List.replicate 16 3, 3⟩

/-- The descriptor set whose `range` yields `b.xml` before `a.xml`. -/
def devicesBA : GoMap String :=
  ⟨[("b.xml", "<hostdev>b</hostdev>"), ("a.xml", "<hostdev>a</hostdev>")], by decide⟩

/-- An ownership map with the keys of `devicesBA`. -/
def ownersAB : GoMap Domain := ⟨[("a.xml", dom1), ("b.xml", dom2)], by decide⟩

/-- A daemon that knows `dom1` and `dom2`, reads every configuration as `xml` and accepts
every device call. -/
def acceptingDaemon (xml : String) : Libvirt where
  Domains := .ok [dom1, dom2]
  DomainGetXMLDesc := fun _ => .ok xml
  DomainAttachDevice := fun _ _ _ => none
  DomainDetachDevice := fun _ _ _ => none

/-- Orders for the successive executions of a `range` over `devicesBA`: the first execution
yields `a.xml` before `b.xml`, the later ones `b.xml` before `a.xml`. -/
def alternatingOrders : RangeOrders devicesBA where
  order := fun i =>
    if i = 0 then [("a.xml", "<hostdev>a</hostdev>"), ("b.xml", "<hostdev>b</hostdev>")]
    else [("b.xml", "<hostdev>b</hostdev>"), ("a.xml", "<hostdev>a</hostdev>")]
  perm := by
    intro i
    by_cases h : i = 0
    · simp only [h, if_true]
      exact List.Perm.swap _ _ _
    · simp only [h, if_false]
      exact List.Perm.refl _

/-- Three descriptors, yielded by `range` in the order `a.xml`, `b.xml`, `c.xml`. -/
def devicesABC : GoMap String :=
  ⟨[("a.xml", "<hostdev>a</hostdev>"), ("b.xml", "<hostdev>b</hostdev>"),
    ("c.xml", "<hostdev>c</hostdev>")], by decide⟩

/-- A daemon that rejects the second device call it receives and accepts the others. -/
def rejectSecondDaemon : Libvirt where
  Domains := .ok [dom1, dom2]
  DomainGetXMLDesc := fun _ => .ok ""
  DomainAttachDevice := fun hist _ _ => if hist.length = 1 then some "rejected" else none
  DomainDetachDevice := fun hist _ _ => if hist.length = 1 then some "rejected" else none

/-- A daemon that knows `dom1` and `dom2` and rejects every device call. -/
def rejectingDaemon : Libvirt where
  Domains := .ok [dom1, dom2]
  DomainGetXMLDesc := fun _ => .ok ""
  DomainAttachDevice := fun _ _ _ => some "rejected"
  DomainDetachDevice := fun _ _ _ => some "rejected"

/-- The lowering of the ASCII letters of a text; `strings.ToLower` is this function on
ASCII text. -/
def asciiLower (s : String) : String := String.mk (s.data.map Char.toLower)

/-- A text library for the examples: a minifier that returns the text it is given, with no
error, and the lowering of ASCII letters. -/
def plainLib : TextLib where
  minifyString := fun _ v => (v, none)
  ToLower := asciiLower

/-- A text library for the examples: a minifier that fails on a text holding a NUL
character, returning the text it was given together with the error, and otherwise returns
the text it is given; and the lowering of ASCII letters. -/
def nulLib : TextLib where
  minifyString := fun _ v =>
    if Char.ofNat 0 ∈ v.data then (v, some "unexpected NULL character") else (v, none)
  ToLower := asciiLower

/-- One descriptor, whose text differs in case from the configuration of the domain of
`hostdevDaemon`. -/
def devicesA : GoMap String := ⟨[("a.xml", "<hostdev>X</hostdev>")], by decide⟩

/-- A daemon with the one domain `dom1`, whose configuration holds the device of
`devicesA` in upper case. -/
def hostdevDaemon : Libvirt where
  Domains := .ok [dom1]
  DomainGetXMLDesc := fun _ => .ok "<domain><HOSTDEV>X</HOSTDEV></domain>"
  DomainAttachDevice := fun _ _ _ => none
  DomainDetachDevice := fun _ _ _ => none

/-- A daemon with three domains: the configuration of `dom2` cannot be read, those of
`dom1` and `dom3` hold the device `a` and the device `b`. -/
def threeDomainsDaemon : Libvirt where
  Domains := .ok [dom1, dom2, dom3]
  DomainGetXMLDesc := fun d =>
    if d = dom2 then .error "unreadable"
    else if d = dom1 then .ok "<domain><hostdev>a</hostdev></domain>"
    else .ok "<domain><hostdev>b</hostdev></domain>"
  DomainAttachDevice := fun _ _ _ => none
  DomainDetachDevice := fun _ _ _ => none

/-- One descriptor whose text holds a NUL character. -/
def devicesNul : GoMap String := ⟨[("a.xml", "<hostdev>\x00</hostdev>")], by decide⟩

/-- A daemon with the one domain `dom1`, whose configuration holds the text of
`devicesNul`. -/
def nulDaemon : Libvirt where
  Domains := .ok [dom1]
  DomainGetXMLDesc := fun _ => .ok "<domain><hostdev>\x00</hostdev></domain>"
  DomainAttachDevice := fun _ _ _ => none
  DomainDetachDevice := fun _ _ _ => none

theorem GoMap.get?_empty {V : Type} (k : String) : (GoMap.empty : GoMap V).get? k = none := by
  simp [GoMap.get?, GoMap.empty]

theorem lookup_eq_none_of_not_mem {V : Type} (k : String) (l : List (String × V))
    (h : k ∉ l.map Prod.fst) : l.lookup k = none := by
  induction l with
  | nil => rfl
  | cons e rest ih =>
    obtain ⟨k0, v0⟩ := e
    simp only [List.map_cons, List.mem_cons, not_or] at h
    have hne : (k == k0) = false := by simpa using h.1
    rw [List.lookup_cons, hne]
    exact ih h.2

theorem lookup_isSome_of_mem {V : Type} (k : String) (l : List (String × V))
    (h : k ∈ l.map Prod.fst) : ∃ v, l.lookup k = some v := by
  induction l with
  | nil => simp at h
  | cons e rest ih =>
    obtain ⟨k0, v0⟩ := e
    by_cases hk : k = k0
    · exact ⟨v0, by simp [List.lookup_cons, hk]⟩
    · have hne : (k == k0) = false := by simpa using hk
      have hmem : k ∈ rest.map Prod.fst := by
        simp only [List.map_cons, List.mem_cons] at h
        rcases h with h | h
        · exact absurd h hk
        · exact h
      rw [List.lookup_cons, hne]
      exact ih hmem

theorem lookup_replace {V : Type} (k : String) (v : V) (k1 : String) (l : List (String × V)) :
    (l.map (fun e => if e.1 = k then (k, v) else e)).lookup k1 =
      if k1 = k then (if k ∈ l.map Prod.fst then some v else none) else l.lookup k1 := by
  induction l with
  | nil => simp
  | cons e rest ih =>
    obtain ⟨k0, v0⟩ := e
    by_cases h0 : k0 = k
    · subst h0
      by_cases h1 : k1 = k0
      · subst h1
        simp [List.lookup_cons]
      · have hne : (k1 == k0) = false := by simpa using h1
        simp only [List.map_cons, if_true, List.lookup_cons, hne, ih, if_neg h1]
    · by_cases h1 : k1 = k
      · subst h1
        have hne : (k1 == k0) = false := by simpa using (Ne.symm h0)
        simp only [List.map_cons, if_neg h0, List.lookup_cons, hne, ih, if_true,
          List.mem_cons]
        have h0s : ¬ k1 = k0 := fun h => h0 h.symm
        simp only [h0s, false_or]
      · simp only [List.map_cons, if_neg h0, List.lookup_cons, ih, if_neg h1]

theorem lookup_append_single {V : Type} (k : String) (v : V) (k1 : String)
    (l : List (String × V)) :
    (l ++ [(k, v)]).lookup k1 = (l.lookup k1).or (if k1 = k then some v else none) := by
  induction l with
  | nil =>
    by_cases h : k1 = k
    · simp [List.lookup_cons, h]
    · have hne : (k1 == k) = false := by simpa using h
      simp [List.lookup_cons, hne, h]
  | cons e rest ih =>
    obtain ⟨k0, v0⟩ := e
    by_cases h0 : k1 = k0
    · simp [List.lookup_cons, h0]
    · have hne : (k1 == k0) = false := by simpa using h0
      simp only [List.cons_append, List.lookup_cons, hne, ih]

theorem GoMap.get?_set_self {V : Type} (m : GoMap V) (k : String) (v : V) :
    (m.set k v).get? k = some v := by
  unfold GoMap.set GoMap.get?
  split
  · rename_i h
    simp only [lookup_replace, if_true, if_pos h]
  · rename_i h
    simp only [lookup_append_single, if_true, lookup_eq_none_of_not_mem k m.entries h,
      Option.or]

theorem GoMap.get?_set_ne {V : Type} (m : GoMap V) (k : String) (v : V) (k1 : String)
    (hne : k1 ≠ k) : (m.set k v).get? k1 = m.get? k1 := by
  unfold GoMap.set GoMap.get?
  split
  · simp only [lookup_replace, if_neg hne]
  · simp only [lookup_append_single, if_neg hne, Option.or_none]

theorem GoMap.get?_isSome_of_mem_keys {V : Type} (m : GoMap V) (k : String)
    (h : k ∈ m.keys) : ∃ v, m.get? k = some v :=
  lookup_isSome_of_mem k m.entries h

theorem GoMap.get?_eq_none_of_not_mem_keys {V : Type} (m : GoMap V) (k : String)
    (h : k ∉ m.keys) : m.get? k = none :=
  lookup_eq_none_of_not_mem k m.entries h

/-! ## Lemmas: sorting -/

theorem Less_iff (a b : String) : Less a b = true ↔ a < b := by
  unfold Less
  rw [decide_eq_true_iff]
  exact String.lt_iff_toList_lt.symm

theorem Less_eq_false_iff (a b : String) : Less a b = false ↔ b ≤ a := by
  rw [← not_lt, ← Less_iff]
  simp

theorem sortSlice_perm (less : String → String → Bool) (xs : List String) :
    (sortSlice less xs).Perm xs :=
  List.perm_insertionSort _ xs

theorem sortSlice_less_sorted (xs : List String) :
    (sortSlice Less xs).Sorted (fun a b => a ≤ b) := by
  haveI : IsTotal String (fun a b => Less b a = false) :=
    ⟨fun a b => by simp only [Less_eq_false_iff]; exact le_total a b⟩
  haveI : IsTrans String (fun a b => Less b a = false) :=
    ⟨fun a b c => by simp only [Less_eq_false_iff]; exact le_trans⟩
  have h := List.sorted_insertionSort (fun a b => Less b a = false) xs
  exact List.Pairwise.imp (fun {a b} hab => (Less_eq_false_iff b a).1 hab) h

theorem sortSlice_reverse_sorted (xs : List String) :
    (sortSlice (Reverse Less) xs).Sorted (fun a b => b ≤ a) := by
  haveI : IsTotal String (fun a b => Reverse Less b a = false) :=
    ⟨fun a b => by simp only [Reverse, Less_eq_false_iff]; exact le_total b a⟩
  haveI : IsTrans String (fun a b => Reverse Less b a = false) :=
    ⟨fun a b c => by
      simp only [Reverse, Less_eq_false_iff]
      exact fun h1 h2 => le_trans h2 h1⟩
  have h := List.sorted_insertionSort (fun a b => Reverse Less b a = false) xs
  exact List.Pairwise.imp (fun {a b} hab => (Less_eq_false_iff a b).1 hab) h

theorem sortSlice_reverse_strict (xs : List String) (hnd : xs.Nodup) :
    (sortSlice (Reverse Less) xs).Sorted (fun a b => b < a) := by
  have h1 := sortSlice_reverse_sorted xs
  have h2 : (sortSlice (Reverse Less) xs).Nodup :=
    (sortSlice_perm (Reverse Less) xs).nodup_iff.2 hnd
  have h3 := List.Pairwise.and h1 h2
  exact List.Pairwise.imp (fun {a b} hab => lt_of_le_of_ne hab.1 (Ne.symm hab.2)) h3

/-! ## Lemmas: the loops that issue device calls -/

theorem attachRange_cons (client : Libvirt) (domain : Domain) (n x : String)
    (rest : List (String × String)) (hist : List Call) :
    attachRange client domain ((n, x) :: rest) hist =
      match client.DomainAttachDevice hist domain x with
      | some _ => ⟨hist ++ [⟨.DomainAttachDevice, domain, x, n⟩], .fatal⟩
      | none => attachRange client domain rest (hist ++ [⟨.DomainAttachDevice, domain, x, n⟩]) :=
  rfl

theorem detachLoop_cons (client : Libvirt) (O : GoMap Domain) (D : GoMap String) (n : String)
    (rest : List String) (hist : List Call) :
    detachLoop client O D (n :: rest) hist =
      match client.DomainDetachDevice hist (O.index n) (D.index n) with
      | some _ => ⟨hist ++ [detachCall O D n], .fatal⟩
      | none => detachLoop client O D rest (hist ++ [detachCall O D n]) :=
  rfl

theorem attachRange_accepted (client : Libvirt) (domain : Domain)
    (hok : ∀ hist dom xml, client.DomainAttachDevice hist dom xml = none) :
    ∀ (es : List (String × String)) (hist : List Call),
      attachRange client domain es hist = ⟨hist ++ attachCalls domain es, .returned ()⟩ := by
  intro es
  induction es with
  | nil => intro hist; simp [attachRange, attachCalls]
  | cons e rest ih =>
    intro hist
    obtain ⟨n, x⟩ := e
    rw [attachRange_cons, hok, ih]
    simp [attachCalls]

theorem attachRange_first_rejected (client : Libvirt) (domain : Domain) :
    ∀ (es : List (String × String)) (hist : List Call) (j : Nat) (e : String × String)
      (msg : String),
      (∀ i, i < j → ∀ e1, es[i]? = some e1 →
        client.DomainAttachDevice (hist ++ (attachCalls domain es).take i) domain e1.2
          = none) →
      es[j]? = some e →
      client.DomainAttachDevice (hist ++ (attachCalls domain es).take j) domain e.2
        = some msg →
      attachRange client domain es hist
        = ⟨hist ++ (attachCalls domain es).take (j + 1), .fatal⟩ := by
  intro es
  induction es with
  | nil => intro hist j e msg _ hj _; simp at hj
  | cons e0 rest ih =>
    intro hist j e msg hacc hj hrej
    obtain ⟨n, x⟩ := e0
    rw [attachRange_cons]
    cases j with
    | zero =>
      simp only [List.getElem?_cons_zero, Option.some.injEq] at hj
      subst hj
      simp only [List.take_zero, List.append_nil] at hrej
      rw [hrej]
      simp [attachCalls]
    | succ j =>
      have h0 := hacc 0 (Nat.succ_pos j) (n, x) (by simp)
      simp only [List.take_zero, List.append_nil] at h0
      rw [h0]
      have hshift : ∀ i, hist ++ (attachCalls domain ((n, x) :: rest)).take (i + 1)
          = (hist ++ [⟨.DomainAttachDevice, domain, x, n⟩])
              ++ (attachCalls domain rest).take i := by
        intro i
        simp [attachCalls]
      rw [hshift]
      apply ih _ j e msg
      · intro i hi e1 he1
        rw [← hshift]
        exact hacc (i + 1) (Nat.succ_lt_succ hi) e1 (by simpa using he1)
      · simpa using hj
      · rw [← hshift]
        exact hrej

theorem detachLoop_accepted (client : Libvirt) (O : GoMap Domain) (D : GoMap String)
    (hok : ∀ hist dom xml, client.DomainDetachDevice hist dom xml = none) :
    ∀ (names : List String) (hist : List Call),
      detachLoop client O D names hist
        = ⟨hist ++ names.map (detachCall O D), .returned ()⟩ := by
  intro names
  induction names with
  | nil => intro hist; simp [detachLoop]
  | cons n rest ih =>
    intro hist
    rw [detachLoop_cons, hok, ih]
    simp

theorem orphanRange_eq (client : Libvirt) (domain : Domain) :
    ∀ (es : List (String × String)) (hist : List Call),
      orphanRange client domain es hist = hist ++ attachCalls domain es := by
  intro es
  induction es with
  | nil => intro hist; simp [orphanRange, attachCalls]
  | cons e rest ih =>
    intro hist
    obtain ⟨n, x⟩ := e
    have hstep : orphanRange client domain ((n, x) :: rest) hist
        = orphanRange client domain rest (hist ++ [⟨.DomainAttachDevice, domain, x, n⟩]) := by
      simp only [orphanRange]
      split <;> rfl
    rw [hstep, ih]
    simp [attachCalls]

theorem orphanDomains_eq (client : Libvirt) (order : Nat → List (String × String)) :
    ∀ (domains : List Domain) (i : Nat) (hist : List Call),
      orphanDomains client order domains i hist
        = hist ++ (domains.enumFrom i).flatMap (fun p => attachCalls p.2 (order p.1)) := by
  intro domains
  induction domains with
  | nil => intro i hist; simp [orphanDomains]
  | cons d rest ih =>
    intro i hist
    simp only [orphanDomains, ih, orphanRange_eq, List.enumFrom_cons, List.flatMap_cons,
      List.append_assoc]

theorem flatMap_enumFrom_perm (order : Nat → List (String × String))
    (es : List (String × String)) (horder : ∀ i, (order i).Perm es) :
    ∀ (domains : List Domain) (i : Nat),
      ((domains.enumFrom i).flatMap (fun p => attachCalls p.2 (order p.1))).Perm
        (domains.flatMap (fun d => attachCalls d es)) := by
  intro domains
  induction domains with
  | nil => intro i; simp
  | cons d rest ih =>
    intro i
    rw [List.enumFrom_cons, List.flatMap_cons, List.flatMap_cons]
    exact List.Perm.append (List.Perm.map _ (horder i)) (ih (i + 1))

theorem length_flatMap_attachCalls (es : List (String × String)) (domains : List Domain) :
    (domains.flatMap (fun d => attachCalls d es)).length = domains.length * es.length := by
  induction domains with
  | nil => simp
  | cons d rest ih =>
    have hlen : (attachCalls d es).length = es.length := by simp [attachCalls]
    rw [List.flatMap_cons, List.length_append, ih, hlen, List.length_cons]
    ring

theorem count_attachCalls (es : List (String × String)) (hnd : (es.map Prod.fst).Nodup)
    (e : String × String) (he : e ∈ es) (d d0 : Domain) :
    (attachCalls d0 es).count ⟨.DomainAttachDevice, d, e.2, e.1⟩
      = if d0 = d then 1 else 0 := by
  by_cases hd : d0 = d
  · subst hd
    rw [if_pos rfl]
    have hinj : Function.Injective
        (fun e : String × String => (⟨.DomainAttachDevice, d0, e.2, e.1⟩ : Call)) := by
      intro e1 e2 h
      simp only [Call.mk.injEq, true_and] at h
      exact Prod.ext h.2 h.1
    have hcount := List.count_map_of_injective es _ hinj e
    have hone := List.count_eq_one_of_mem (List.Nodup.of_map _ hnd) he
    rw [hone] at hcount
    exact hcount
  · rw [if_neg hd]
    apply List.count_eq_zero_of_not_mem
    intro hmem
    obtain ⟨e1, _, h1⟩ := List.mem_map.1 hmem
    simp only [Call.mk.injEq, true_and] at h1
    exact hd h1.1

theorem count_flatMap_attachCalls (es : List (String × String))
    (hnd : (es.map Prod.fst).Nodup) (e : String × String) (he : e ∈ es) (d : Domain) :
    ∀ domains : List Domain,
      (domains.flatMap (fun d0 => attachCalls d0 es)).count ⟨.DomainAttachDevice, d, e.2, e.1⟩
        = domains.count d := by
  intro domains
  induction domains with
  | nil => simp
  | cons d0 rest ih =>
    rw [List.flatMap_cons, List.count_append, ih, count_attachCalls es hnd e he d d0,
      List.count_cons]
    by_cases hd : d0 = d
    · simp [hd]
      omega
    · simp [hd]

/-! ## Lemmas: findDevices -/

theorem findRange_get? (lib : TextLib) (xml : String) (domain : Domain) :
    ∀ (es : List (String × String)) (output : GoMap Domain) (n : String),
      (es.map Prod.fst).Nodup →
      (findRange lib xml domain es output).get? n =
        match es.lookup n with
        | some x => if Contains xml (normalize lib x) then some domain else output.get? n
        | none => output.get? n := by
  intro es
  induction es with
  | nil => intro output n _; simp [findRange]
  | cons e rest ih =>
    intro output n hnd
    obtain ⟨k, x⟩ := e
    simp only [List.map_cons, List.nodup_cons] at hnd
    obtain ⟨hk, hrest⟩ := hnd
    by_cases hn : n = k
    · subst hn
      have hnone : rest.lookup n = none := lookup_eq_none_of_not_mem n rest hk
      simp only [findRange, List.lookup_cons, beq_self_eq_true]
      by_cases hc : Contains xml (normalize lib x) = true
      · have hc1 : Contains xml (lib.ToLower (lib.minifyString "text/xml" x).1) = true := hc
        rw [if_pos hc1, ih _ n hrest, hnone]
        simp only [hc, if_true]
        exact GoMap.get?_set_self output n domain
      · have hc1 : ¬ Contains xml (lib.ToLower (lib.minifyString "text/xml" x).1) = true := hc
        rw [if_neg hc1, ih _ n hrest, hnone]
        simp only [hc, if_false]
        rfl
    · have hne : (n == k) = false := by simpa using hn
      simp only [findRange, List.lookup_cons, hne]
      split
      · rw [ih _ n hrest, GoMap.get?_set_ne output k domain n hn]
      · rw [ih _ n hrest]

theorem lastOwner_cons (lib : TextLib) (client : Libvirt) (d : Domain) (ds : List Domain)
    (x : String) :
    lastOwner lib client (d :: ds) x =
      (lastOwner lib client ds x).or
        (match client.DomainGetXMLDesc d with
         | .ok xml =>
           if Contains (normalize lib xml) (normalize lib x) then some d else none
         | .error _ => none) := by
  unfold lastOwner readableConfigs
  rw [List.filterMap_cons]
  cases hx : client.DomainGetXMLDesc d with
  | error err => simp
  | ok xml =>
    simp only [List.filter_cons]
    by_cases hc : Contains (normalize lib xml) (normalize lib x) = true
    · simp only [hc, if_true, List.getLast?_cons]
      cases (List.filter (fun p => Contains p.2 (normalize lib x))
        (List.filterMap (fun d =>
          match client.DomainGetXMLDesc d with
          | .ok xml => some (d, normalize lib xml)
          | .error _ => none) ds)).getLast? <;> simp
    · simp [hc]

theorem findDomains_get? (lib : TextLib) (client : Libvirt) (D : GoMap String) :
    ∀ (domains : List Domain) (output : GoMap Domain) (n : String),
      (findDomains lib client D domains output).get? n =
        match D.get? n with
        | some x => (lastOwner lib client domains x).or (output.get? n)
        | none => output.get? n := by
  intro domains
  induction domains with
  | nil =>
    intro output n
    cases D.get? n <;> simp [findDomains, lastOwner, readableConfigs]
  | cons d rest ih =>
    intro output n
    cases hx : client.DomainGetXMLDesc d with
    | error err =>
      simp only [findDomains, hx, ih, lastOwner_cons]
      cases D.get? n <;> simp
    | ok xml =>
      simp only [findDomains, hx, ih, lastOwner_cons]
      have hr := findRange_get? lib (normalize lib xml) d D.entries output n D.nodup
      have hr1 : (findRange lib (lib.ToLower (lib.minifyString "text/xml" xml).1) d D.entries
          output).get? n
          = match D.get? n with
            | some x =>
              if Contains (normalize lib xml) (normalize lib x) then some d else output.get? n
            | none => output.get? n := hr
      rw [hr1]
      cases hD : D.get? n with
      | none => rfl
      | some x =>
        simp only []
        by_cases hc : Contains (normalize lib xml) (normalize lib x) = true
        · simp only [hc, if_true]
          cases lastOwner lib client rest x <;> simp
        · simp only [hc]
          cases lastOwner lib client rest x <;> simp

theorem findDomains_filter_readable (lib : TextLib) (client : Libvirt) (D : GoMap String) :
    ∀ (domains : List Domain) (output : GoMap Domain),
      findDomains lib client D (domains.filter (readable client)) output
        = findDomains lib client D domains output := by
  intro domains
  induction domains with
  | nil => intro output; rfl
  | cons d rest ih =>
    intro output
    cases hx : client.DomainGetXMLDesc d with
    | error err =>
      have hr : readable client d = false := by simp [readable, hx]
      simp only [List.filter_cons, hr, findDomains, hx]
      simpa using ih output
    | ok xml =>
      have hr : readable client d = true := by simp [readable, hx]
      simp only [List.filter_cons, hr, findDomains, hx, if_true]
      exact ih _

theorem lastOwner_isSome_iff (lib : TextLib) (client : Libvirt) (domains : List Domain)
    (x : String) :
    (∃ d, lastOwner lib client domains x = some d) ↔
      ∃ p, p ∈ readableConfigs lib client domains ∧
        Contains p.2 (normalize lib x) = true := by
  unfold lastOwner
  constructor
  · rintro ⟨d, hd⟩
    cases hl : ((readableConfigs lib client domains).filter
        (fun p => Contains p.2 (normalize lib x))).getLast? with
    | none => rw [hl] at hd; simp at hd
    | some p =>
      have hmem := List.mem_of_getLast?_eq_some hl
      rw [List.mem_filter] at hmem
      exact ⟨p, hmem.1, hmem.2⟩
  · rintro ⟨p, hp, hc⟩
    have hmem : p ∈ (readableConfigs lib client domains).filter
        (fun p => Contains p.2 (normalize lib x)) := List.mem_filter.2 ⟨hp, hc⟩
    cases hl : ((readableConfigs lib client domains).filter
        (fun p => Contains p.2 (normalize lib x))).getLast? with
    | none =>
      rw [List.getLast?_eq_none_iff] at hl
      rw [hl] at hmem
      simp at hmem
    | some q => exact ⟨q.1, rfl⟩

theorem findRange_congr (lib lib1 : TextLib)
    (hnorm : ∀ v, normalize lib v = normalize lib1 v) (xml : String) (domain : Domain) :
    ∀ (es : List (String × String)) (output : GoMap Domain),
      findRange lib xml domain es output = findRange lib1 xml domain es output := by
  intro es
  induction es with
  | nil => intro output; rfl
  | cons e rest ih =>
    intro output
    obtain ⟨k, x⟩ := e
    have hx : lib.ToLower (lib.minifyString "text/xml" x).1
        = lib1.ToLower (lib1.minifyString "text/xml" x).1 := hnorm x
    simp only [findRange, hx, ih]

theorem findDomains_congr (lib lib1 : TextLib)
    (hnorm : ∀ v, normalize lib v = normalize lib1 v) (client : Libvirt) (D : GoMap String) :
    ∀ (domains : List Domain) (output : GoMap Domain),
      findDomains lib client D domains output = findDomains lib1 client D domains output := by
  intro domains
  induction domains with
  | nil => intro output; rfl
  | cons d rest ih =>
    intro output
    cases hd : client.DomainGetXMLDesc d with
    | error err => simp only [findDomains, hd, ih]
    | ok xml =>
      have hx : lib.ToLower (lib.minifyString "text/xml" xml).1
          = lib1.ToLower (lib1.minifyString "text/xml" xml).1 := hnorm xml
      simp only [findDomains, hd, ih, hx, findRange_congr lib lib1 hnorm]

theorem findDomains_same_configs (lib : TextLib) (client client1 : Libvirt)
    (hcfg : client.DomainGetXMLDesc = client1.DomainGetXMLDesc) (D : GoMap String) :
    ∀ (domains : List Domain) (output : GoMap Domain),
      findDomains lib client D domains output = findDomains lib client1 D domains output := by
  intro domains
  induction domains with
  | nil => intro output; rfl
  | cons d rest ih =>
    intro output
    simp only [findDomains, ← hcfg, ih]

theorem detachLoop_of_issued_accepted (client : Libvirt) (O : GoMap Domain)
    (D : GoMap String) :
    ∀ (names : List String) (hist : List Call),
      (∀ i c, hist.length ≤ i → (detachLoop client O D names hist).calls[i]? = some c →
        client.DomainDetachDevice ((detachLoop client O D names hist).calls.take i)
          c.domain c.xml = none) →
      detachLoop client O D names hist
        = ⟨hist ++ names.map (detachCall O D), .returned ()⟩ := by
  intro names
  induction names with
  | nil => intro hist _; simp [detachLoop]
  | cons n rest ih =>
    intro hist hok
    cases hresp : client.DomainDetachDevice hist (O.index n) (D.index n) with
    | some msg =>
      have hrun : detachLoop client O D (n :: rest) hist
          = ⟨hist ++ [detachCall O D n], .fatal⟩ := by
        rw [detachLoop_cons, hresp]
      rw [hrun] at hok
      have h := hok hist.length (detachCall O D n) (Nat.le_refl _) (by simp)
      simp only [List.take_left] at h
      have h1 : client.DomainDetachDevice hist (O.index n) (D.index n) = none := h
      rw [hresp] at h1
      exact absurd h1 (by simp)
    | none =>
      have hrun : detachLoop client O D (n :: rest) hist
          = detachLoop client O D rest (hist ++ [detachCall O D n]) := by
        rw [detachLoop_cons, hresp]
      rw [hrun] at hok ⊢
      rw [ih (hist ++ [detachCall O D n])
        (fun i c hi hc => hok i c (by simp at hi; omega) hc)]
      simp

theorem lastOwner_decided_by_last_pair (lib : TextLib) (client : Libvirt) (d : Domain)
    (cfg x : String) (post : List Domain) (hcfg : client.DomainGetXMLDesc d = .ok cfg)
    (hpost : ∀ d1, d1 ∈ post → ∀ cfg1, client.DomainGetXMLDesc d1 = .ok cfg1 →
      Contains (normalize lib cfg1) (normalize lib x) = false) :
    ∀ pre : List Domain,
      lastOwner lib client (pre ++ d :: post) x =
        if Contains (normalize lib cfg) (normalize lib x) then some d
        else lastOwner lib client pre x := by
  have hnone : lastOwner lib client post x = none := by
    induction post with
    | nil => simp [lastOwner, readableConfigs]
    | cons d1 rest ih =>
      rw [lastOwner_cons, ih (fun d2 h2 => hpost d2 (List.mem_cons_of_mem _ h2))]
      cases h1 : client.DomainGetXMLDesc d1 with
      | error err => rfl
      | ok cfg1 =>
        have hc := hpost d1 (List.mem_cons_self _ _) cfg1 h1
        simp [hc]
  intro pre
  induction pre with
  | nil =>
    rw [List.nil_append, lastOwner_cons, hnone, hcfg]
    simp [lastOwner, readableConfigs]
  | cons p rest ih =>
    rw [List.cons_append, lastOwner_cons, ih, lastOwner_cons]
    by_cases hc : Contains (normalize lib cfg) (normalize lib x) = true
    · simp [hc]
    · simp [hc]

/-! ## attachDevices and detachDevices: the order of the calls -/

/-- C1, evaluated on the code: for the descriptor set whose `range` yields `b.xml` before
`a.xml`, and a daemon that accepts every call, `attachDevices` issues the call for `b.xml`
first and the call for `a.xml` second, although the sorted slice it built is
`a.xml`, `b.xml`: the calls follow the `range` over the map, not the sorted names. -/
theorem attachDevices_follows_range_order :
    sortSlice Less devicesBA.keys = ["a.xml", "b.xml"] ∧
    (attachDevices (acceptingDaemon "") dom1 devicesBA).calls
      = [⟨.DomainAttachDevice, dom1, "<hostdev>b</hostdev>", "b.xml"⟩,
         ⟨.DomainAttachDevice, dom1, "<hostdev>a</hostdev>", "a.xml"⟩] ∧
    (attachDevices (acceptingDaemon "") dom1 devicesBA).result = .returned () := by
  decide

/-- C2: when the daemon accepts every detach call that `detachDevices` issues, the run
returns, the names of its calls are the keys of the ownership map, each once (so no call is
issued for a name that is only in the descriptor set), in strictly descending order, and the
call for a name carries the domain the ownership map gives that name and the text the
descriptor set gives it. -/
theorem detachDevices_descending (client : Libvirt) (O : GoMap Domain) (D : GoMap String)
    (hok : ∀ i c, (detachDevices client O D).calls[i]? = some c →
      client.DomainDetachDevice ((detachDevices client O D).calls.take i) c.domain c.xml
        = none) :
    (detachDevices client O D).result = .returned () ∧
    ((detachDevices client O D).calls.map Call.deviceName).Perm O.keys ∧
    ((detachDevices client O D).calls.map Call.deviceName).Nodup ∧
    ((detachDevices client O D).calls.map Call.deviceName).Sorted (fun a b => b < a) ∧
    (∀ n, n ∈ D.keys → n ∉ O.keys →
      n ∉ (detachDevices client O D).calls.map Call.deviceName) ∧
    (∀ c, c ∈ (detachDevices client O D).calls →
      c.rpc = .DomainDetachDevice ∧ O.get? c.deviceName = some c.domain ∧
      c.xml = D.index c.deviceName) := by
  have hrun : detachDevices client O D
      = ⟨(sortSlice (Reverse Less) O.keys).map (detachCall O D), .returned ()⟩ := by
    have h := detachLoop_of_issued_accepted client O D (sortSlice (Reverse Less) O.keys) []
      (fun i c _ hc => hok i c hc)
    simpa [detachDevices] using h
  have hnames : ((detachDevices client O D).calls.map Call.deviceName)
      = sortSlice (Reverse Less) O.keys := by
    rw [hrun, List.map_map]
    have hid : (Call.deviceName ∘ detachCall O D) = id := by
      funext n
      rfl
    rw [hid, List.map_id]
  have hperm := sortSlice_perm (Reverse Less) O.keys
  refine ⟨by rw [hrun], ?_, ?_, ?_, ?_, ?_⟩
  · rw [hnames]
    exact hperm
  · rw [hnames]
    exact hperm.nodup_iff.2 O.nodup
  · rw [hnames]
    exact sortSlice_reverse_strict O.keys O.nodup
  · intro n _ hnO hmem
    rw [hnames] at hmem
    exact hnO (hperm.mem_iff.1 hmem)
  · intro c hc
    rw [hrun] at hc
    obtain ⟨n, hn, rfl⟩ := List.mem_map.1 hc
    have hnO : n ∈ O.keys := hperm.mem_iff.1 hn
    obtain ⟨d, hd⟩ := GoMap.get?_isSome_of_mem_keys O n hnO
    refine ⟨rfl, ?_, rfl⟩
    show O.get? n = some (O.index n)
    simp [GoMap.index, hd]

/-- C2, on the example of the claim: the daemon accepts every call, the ownership map is
`a.xml` on `dom1` and `b.xml` on `dom2`; the calls are `b.xml` on `dom2`, then `a.xml` on
`dom1`. -/
theorem detachDevices_descending_witness :
    (detachDevices (acceptingDaemon "") ownersAB devicesBA).calls
      = [⟨.DomainDetachDevice, dom2, "<hostdev>b</hostdev>", "b.xml"⟩,
         ⟨.DomainDetachDevice, dom1, "<hostdev>a</hostdev>", "a.xml"⟩] ∧
    (detachDevices (acceptingDaemon "") ownersAB devicesBA).result = .returned () ∧
    ((detachDevices (acceptingDaemon "") ownersAB devicesBA).calls.map
      Call.deviceName).Perm ownersAB.keys ∧
    ((detachDevices (acceptingDaemon "") ownersAB devicesBA).calls.map
      Call.deviceName).Nodup ∧
    ((detachDevices (acceptingDaemon "") ownersAB devicesBA).calls.map
      Call.deviceName).Sorted (fun a b => b < a) ∧
    (∀ n, n ∈ devicesBA.keys → n ∉ ownersAB.keys →
      n ∉ (detachDevices (acceptingDaemon "") ownersAB devicesBA).calls.map
        Call.deviceName) ∧
    (∀ c, c ∈ (detachDevices (acceptingDaemon "") ownersAB devicesBA).calls →
      c.rpc = .DomainDetachDevice ∧ ownersAB.get? c.deviceName = some c.domain ∧
      c.xml = devicesBA.index c.deviceName) :=
  ⟨by decide,
    detachDevices_descending (acceptingDaemon "") ownersAB devicesBA (fun _ _ _ => rfl)⟩

/-- C3, evaluated on the code: for the descriptor set whose `range` yields `b.xml` before
`a.xml`, an ownership map with the same keys and a daemon that accepts every call, the names
of the calls of `detachDevices` are `b.xml`, `a.xml`, and so are the names of the calls of
`attachDevices`: the former is not the reverse of the latter. -/
theorem detach_order_not_reverse_of_attach_order :
    ownersAB.keys.Perm devicesBA.keys ∧
    (detachDevices (acceptingDaemon "") ownersAB devicesBA).calls.map Call.deviceName
      = ["b.xml", "a.xml"] ∧
    (attachDevices (acceptingDaemon "") dom1 devicesBA).calls.map Call.deviceName
      = ["b.xml", "a.xml"] ∧
    (detachDevices (acceptingDaemon "") ownersAB devicesBA).calls.map Call.deviceName
      ≠ ((attachDevices (acceptingDaemon "") dom1 devicesBA).calls.map
          Call.deviceName).reverse := by
  refine ⟨List.Perm.swap _ _ _, ?_, ?_, ?_⟩ <;> decide

/-- C6: when the first call of `attachDevices` that the daemon rejects is the call for the
entry at position `j` of the `range` (the daemon accepts the `j` calls before it), the calls
issued are exactly the first `j + 1` calls of the `range`, none follows the rejected one,
and the run ends in `log.Fatalf`. -/
theorem attachDevices_fail_fast (client : Libvirt) (domain : Domain) (D : GoMap String)
    (j : Nat) (e : String × String) (msg : String)
    (hacc : ∀ i, i < j → ∀ e1, D.entries[i]? = some e1 →
      client.DomainAttachDevice ((attachCalls domain D.entries).take i) domain e1.2 = none)
    (hj : D.entries[j]? = some e)
    (hrej : client.DomainAttachDevice ((attachCalls domain D.entries).take j) domain e.2
      = some msg) :
    (attachDevices client domain D).calls = (attachCalls domain D.entries).take (j + 1) ∧
    (attachDevices client domain D).calls.length = j + 1 ∧
    (attachDevices client domain D).result = .fatal := by
  have hrun : attachDevices client domain D
      = ⟨[] ++ (attachCalls domain D.entries).take (j + 1), .fatal⟩ := by
    unfold attachDevices
    exact attachRange_first_rejected client domain D.entries [] j e msg
      (by simpa using hacc) hj (by simpa using hrej)
  have hlen : j < D.entries.length := by
    rcases Nat.lt_or_ge j D.entries.length with h | h
    · exact h
    · rw [List.getElem?_eq_none h] at hj
      exact absurd hj (by simp)
  rw [hrun]
  refine ⟨by simp, ?_, rfl⟩
  simp only [List.nil_append, List.length_take, attachCalls, List.length_map]
  omega

/-- C6, on the example of the claim: the second of three attach calls is rejected, and the
daemon receives exactly two calls. -/
theorem attachDevices_fail_fast_witness :
    (attachDevices rejectSecondDaemon dom1 devicesABC).calls
      = (attachCalls dom1 devicesABC.entries).take (1 + 1) ∧
    (attachDevices rejectSecondDaemon dom1 devicesABC).calls.length = 1 + 1 ∧
    (attachDevices rejectSecondDaemon dom1 devicesABC).result = .fatal :=
  attachDevices_fail_fast rejectSecondDaemon dom1 devicesABC 1
    ("b.xml", "<hostdev>b</hostdev>") "rejected"
    (by
      intro i hi e1 _
      have h0 : i = 0 := by omega
      subst h0
      rfl)
    (by decide) (by decide)

/-! ## orphanDevices -/

/-- C8: when the enumeration of the domains succeeds, then whatever the daemon answers to
the calls and in whatever order each execution of the inner `range` yields the descriptors,
`orphanDevices` returns; its calls are, domain by domain, the `DomainAttachDevice` calls of
that domain with the descriptors in the order of that execution; they are a rearrangement
of the calls of every domain with every descriptor; the call of a domain `d` with a
descriptor of the set is issued once for each occurrence of `d` in the enumeration; and
the number of calls is the number of domains times the number of descriptors. -/
theorem orphanDevices_probes_every_pair (client : Libvirt) (D : GoMap String)
    (orders : RangeOrders D) (domains : List Domain) (hdom : client.Domains = .ok domains) :
    (orphanDevices client D orders).result = .returned () ∧
    (orphanDevices client D orders).calls
      = domains.enum.flatMap (fun p => attachCalls p.2 (orders.order p.1)) ∧
    (orphanDevices client D orders).calls.Perm
      (domains.flatMap (fun d => attachCalls d D.entries)) ∧
    (∀ d e, e ∈ D.entries →
      (orphanDevices client D orders).calls.count ⟨.DomainAttachDevice, d, e.2, e.1⟩
        = domains.count d) ∧
    (orphanDevices client D orders).calls.length = domains.length * D.entries.length := by
  have hrun : orphanDevices client D orders
      = ⟨domains.enum.flatMap (fun p => attachCalls p.2 (orders.order p.1)),
          .returned ()⟩ := by
    unfold orphanDevices
    rw [hdom]
    simp [orphanDomains_eq, List.enum]
  have hperm : (orphanDevices client D orders).calls.Perm
      (domains.flatMap (fun d => attachCalls d D.entries)) := by
    rw [hrun]
    exact flatMap_enumFrom_perm orders.order D.entries orders.perm domains 0
  refine ⟨by rw [hrun], by rw [hrun], hperm, ?_, ?_⟩
  · intro d e he
    rw [hperm.count_eq]
    exact count_flatMap_attachCalls D.entries D.nodup e he d domains
  · rw [hperm.length_eq]
    exact length_flatMap_attachCalls D.entries domains

/-- C8, on a daemon that rejects every call, two domains and two descriptors, the inner
`range` yielding `a.xml` first for `dom1` and `b.xml` first for `dom2`: four calls, one for
each pair, and a run that returns. -/
theorem orphanDevices_probes_every_pair_witness :
    (orphanDevices rejectingDaemon devicesBA alternatingOrders).calls
      = [⟨.DomainAttachDevice, dom1, "<hostdev>a</hostdev>", "a.xml"⟩,
         ⟨.DomainAttachDevice, dom1, "<hostdev>b</hostdev>", "b.xml"⟩,
         ⟨.DomainAttachDevice, dom2, "<hostdev>b</hostdev>", "b.xml"⟩,
         ⟨.DomainAttachDevice, dom2, "<hostdev>a</hostdev>", "a.xml"⟩] ∧
    ((orphanDevices rejectingDaemon devicesBA alternatingOrders).result = .returned () ∧
    (orphanDevices rejectingDaemon devicesBA alternatingOrders).calls
      = [dom1, dom2].enum.flatMap (fun p => attachCalls p.2 (alternatingOrders.order p.1)) ∧
    (orphanDevices rejectingDaemon devicesBA alternatingOrders).calls.Perm
      ([dom1, dom2].flatMap (fun d => attachCalls d devicesBA.entries)) ∧
    (∀ d e, e ∈ devicesBA.entries →
      (orphanDevices rejectingDaemon devicesBA alternatingOrders).calls.count
          ⟨.DomainAttachDevice, d, e.2, e.1⟩
        = [dom1, dom2].count d) ∧
    (orphanDevices rejectingDaemon devicesBA alternatingOrders).calls.length
      = [dom1, dom2].length * devicesBA.entries.length) :=
  ⟨by decide,
    orphanDevices_probes_every_pair rejectingDaemon devicesBA alternatingOrders [dom1, dom2]
      rfl⟩

/-! ## findDevices -/

/-- C4: when the enumeration of the domains succeeds, `findDevices` returns a map that
gives a name `n` exactly the last domain, in enumeration order, whose configuration could be
read and, normalized, contains the normalized text of the descriptor `n`; the map has an
entry for `n` exactly when `n` is a key of the descriptor set and there is such a domain. -/
theorem findDevices_last_match (lib : TextLib) (client : Libvirt) (D : GoMap String)
    (domains : List Domain) (hdom : client.Domains = .ok domains) :
    ∃ out, findDevices lib client D = .returned out ∧
      (∀ n, out.get? n = (D.get? n).bind (lastOwner lib client domains)) ∧
      (∀ n, (∃ d, out.get? n = some d) ↔
        ∃ x, D.get? n = some x ∧
          ∃ p, p ∈ readableConfigs lib client domains ∧
            Contains p.2 (normalize lib x) = true) := by
  have hout : ∀ n, (findDomains lib client D domains GoMap.empty).get? n
      = (D.get? n).bind (lastOwner lib client domains) := by
    intro n
    rw [findDomains_get?]
    cases D.get? n with
    | none => exact GoMap.get?_empty n
    | some x => simp [GoMap.get?_empty]
  refine ⟨findDomains lib client D domains GoMap.empty, ?_, hout, ?_⟩
  · unfold findDevices
    rw [hdom]
  · intro n
    rw [hout]
    cases D.get? n with
    | none => simp
    | some x =>
      simp only [Option.some_bind, Option.some.injEq, exists_eq_left']
      exact lastOwner_isSome_iff lib client domains x

/-- C4, on the scenario of the specification: one descriptor `<hostdev>X</hostdev>` and one
domain whose configuration holds `<HOSTDEV>X</HOSTDEV>`. -/
theorem findDevices_last_match_witness :
    (∃ out, findDevices plainLib hostdevDaemon devicesA = .returned out ∧
      out.entries = [("a.xml", dom1)]) ∧
    ∃ out, findDevices plainLib hostdevDaemon devicesA = .returned out ∧
      (∀ n, out.get? n = (devicesA.get? n).bind (lastOwner plainLib hostdevDaemon [dom1])) ∧
      (∀ n, (∃ d, out.get? n = some d) ↔
        ∃ x, devicesA.get? n = some x ∧
          ∃ p, p ∈ readableConfigs plainLib hostdevDaemon [dom1] ∧
            Contains p.2 (normalize plainLib x) = true) :=
  ⟨⟨_, rfl, by decide⟩, findDevices_last_match plainLib hostdevDaemon devicesA [dom1] rfl⟩

/-- C5: when the enumeration of the domains succeeds, `findDevices` returns, and what it
returns is what it returns for the daemon whose enumeration is the same one without the
domains whose configuration cannot be read. -/
theorem findDevices_skips_unreadable (lib : TextLib) (client : Libvirt) (D : GoMap String)
    (domains : List Domain) (hdom : client.Domains = .ok domains) :
    (∃ out, findDevices lib client D = .returned out) ∧
    findDevices lib client D
      = findDevices lib
          { client with Domains := .ok (domains.filter (readable client)) } D := by
  have hl : findDevices lib client D
      = .returned (findDomains lib client D domains GoMap.empty) := by
    unfold findDevices
    rw [hdom]
  refine ⟨⟨_, hl⟩, ?_⟩
  rw [hl]
  unfold findDevices
  simp only
  congr 1
  exact (findDomains_filter_readable lib client D domains GoMap.empty).symm.trans
    (findDomains_same_configs lib client
      { client with Domains := .ok (domains.filter (readable client)) } rfl D _ _)

/-- C5, on the scenario of the specification: three domains, the second of which cannot be
read. -/
theorem findDevices_skips_unreadable_witness :
    readable threeDomainsDaemon dom2 = false ∧
    (∃ out, findDevices plainLib threeDomainsDaemon devicesBA = .returned out ∧
      out.entries = [("a.xml", dom1), ("b.xml", dom3)]) ∧
    (∃ out, findDevices plainLib threeDomainsDaemon devicesBA = .returned out) ∧
    findDevices plainLib threeDomainsDaemon devicesBA
      = findDevices plainLib
          { threeDomainsDaemon with
            Domains := .ok ([dom1, dom2, dom3].filter (readable threeDomainsDaemon)) }
          devicesBA :=
  ⟨by decide, ⟨_, rfl, by decide⟩,
    findDevices_skips_unreadable plainLib threeDomainsDaemon devicesBA [dom1, dom2, dom3] rfl⟩

/-- C7 as stated fails: the minifier of `nulLib` fails on the text of the descriptor
`a.xml` and on the configuration of `dom1`, the only domain, and `findDevices` records
`a.xml` as owned by `dom1` all the same. -/
theorem findDevices_records_pair_with_failed_normalization :
    devicesNul.get? "a.xml" = some "<hostdev>\x00</hostdev>" ∧
    (nulLib.minifyString "text/xml" "<hostdev>\x00</hostdev>").2
      = some "unexpected NULL character" ∧
    nulDaemon.Domains = .ok [dom1] ∧
    nulDaemon.DomainGetXMLDesc dom1 = .ok "<domain><hostdev>\x00</hostdev></domain>" ∧
    (nulLib.minifyString "text/xml" "<domain><hostdev>\x00</hostdev></domain>").2
      = some "unexpected NULL character" ∧
    ∃ out, findDevices nulLib nulDaemon devicesNul = .returned out ∧
      out.get? "a.xml" = some dom1 := by
  refine ⟨by decide, by decide, rfl, rfl, by decide, _, rfl, by decide⟩

/-- C7, amended: `findDevices` discards the error the minifier returns and uses the text
returned with it.  When the enumeration of the domains succeeds, whatever the minifier
reports, `findDevices` returns, and the map it returns is such that:
every name has the last domain, in enumeration order, whose configuration could be read
and, normalized from the returned text, contains the normalized returned text of the
descriptor, so every pair is scanned;
for a pair of a domain `d` and a descriptor `n`, when no domain enumerated after `d`
matches `n`, the map gives `n` the domain `d` if the test of the pair succeeds, and what
the domains enumerated before `d` give it otherwise, also when the minifier failed on the
text of `d` or of `n`;
a text library that returns the same texts, with other errors or none, gives the same
result. -/
theorem findDevices_uses_text_returned_with_error (lib : TextLib) (client : Libvirt)
    (D : GoMap String) (domains : List Domain) (hdom : client.Domains = .ok domains) :
    ∃ out, findDevices lib client D = .returned out ∧
      (∀ n, out.get? n = (D.get? n).bind (lastOwner lib client domains)) ∧
      (∀ pre d post cfg n x, domains = pre ++ d :: post →
        client.DomainGetXMLDesc d = .ok cfg → D.get? n = some x →
        (∀ d1, d1 ∈ post → ∀ cfg1, client.DomainGetXMLDesc d1 = .ok cfg1 →
          Contains (normalize lib cfg1) (normalize lib x) = false) →
        out.get? n =
          if Contains (lib.ToLower (lib.minifyString "text/xml" cfg).1)
              (lib.ToLower (lib.minifyString "text/xml" x).1) then some d
          else lastOwner lib client pre x) ∧
      (∀ lib1 : TextLib,
        (∀ mediatype v,
          (lib1.minifyString mediatype v).1 = (lib.minifyString mediatype v).1) →
        lib1.ToLower = lib.ToLower →
        findDevices lib1 client D = .returned out) := by
  have hfind : ∀ l : TextLib, findDevices l client D
      = .returned (findDomains l client D domains GoMap.empty) := by
    intro l
    unfold findDevices
    rw [hdom]
  have hout : ∀ n, (findDomains lib client D domains GoMap.empty).get? n
      = (D.get? n).bind (lastOwner lib client domains) := by
    intro n
    rw [findDomains_get?]
    cases D.get? n with
    | none => exact GoMap.get?_empty n
    | some x => simp [GoMap.get?_empty]
  refine ⟨findDomains lib client D domains GoMap.empty, hfind lib, hout, ?_, ?_⟩
  · intro pre d post cfg n x hsplit hcfg hx hpost
    rw [hout, hx, hsplit]
    exact lastOwner_decided_by_last_pair lib client d cfg x post hcfg hpost pre
  · intro lib1 htext hlower
    have hnorm : ∀ v, normalize lib1 v = normalize lib v := by
      intro v
      unfold normalize
      rw [htext, hlower]
    rw [hfind lib1, findDomains_congr lib1 lib hnorm]

/-- C7, amended, on an example: the minifier of `nulLib` fails on the text of the descriptor
`a.xml` and on the configuration of `dom1`, the only domain; the pair is recorded. -/
theorem findDevices_uses_text_returned_with_error_witness :
    (nulLib.minifyString "text/xml" "<hostdev>\x00</hostdev>").2
      = some "unexpected NULL character" ∧
    (nulLib.minifyString "text/xml" "<domain><hostdev>\x00</hostdev></domain>").2
      = some "unexpected NULL character" ∧
    (∃ out, findDevices nulLib nulDaemon devicesNul = .returned out ∧
      out.entries = [("a.xml", dom1)]) ∧
    ∃ out, findDevices nulLib nulDaemon devicesNul = .returned out ∧
      (∀ n, out.get? n = (devicesNul.get? n).bind (lastOwner nulLib nulDaemon [dom1])) ∧
      (∀ pre d post cfg n x, [dom1] = pre ++ d :: post →
        nulDaemon.DomainGetXMLDesc d = .ok cfg → devicesNul.get? n = some x →
        (∀ d1, d1 ∈ post → ∀ cfg1, nulDaemon.DomainGetXMLDesc d1 = .ok cfg1 →
          Contains (normalize nulLib cfg1) (normalize nulLib x) = false) →
        out.get? n =
          if Contains (nulLib.ToLower (nulLib.minifyString "text/xml" cfg).1)
              (nulLib.ToLower (nulLib.minifyString "text/xml" x).1) then some d
          else lastOwner nulLib nulDaemon pre x) ∧
      (∀ lib1 : TextLib,
        (∀ mediatype v,
          (lib1.minifyString mediatype v).1 = (nulLib.minifyString mediatype v).1) →
        lib1.ToLower = nulLib.ToLower →
        findDevices lib1 nulDaemon devicesNul = .returned out) :=
  ⟨by decide, by decide, ⟨_, rfl, by decide⟩,
    findDevices_uses_text_returned_with_error nulLib nulDaemon devicesNul [dom1] rfl⟩

/-! ## The detach command on a descriptor with an empty normalized text -/

end Juggler
